import Mathlib

/-!
Verification development for the migration engine (`src/migrate/index.js`) and
the client execution core (`src/client.js`) of the react-native-knex fork.

The embedding is a sequential shallow embedding: the database is a pair of the
singleton lock row (`is_locked`) and the migration-records table, threaded
explicitly through the functions that mirror the source.  Promise chains become
`Except`-valued functions; a rejected promise is an `Except.error`.  Events that
matter to the claims (which migration operations ran, and under which
connection/transaction context) are collected in an explicit trace, mirroring
the observable calls the source makes.  Driver-level failures of the single
statement `_freeLock` issues are modelled by an environment flag, so that the
best-effort-cleanup behaviour of `_runBatch` is expressible.
-/

/-- Errors of the migration engine.  `lock` is `LockError` (constructed only in
`_getLock`'s catch), `corrupt` the corrupt-directory error thrown by
`validateMigrationList`, `invalid` the invalid-shape error from
`_validateMigrationStructure`, `typeErr` the TypeError raised by indexing a
missing module, `op` a failure of a migration's own up/down operation, and
`release` a driver failure of the `_freeLock` update. -/
inductive MErr where
  | lock (msg : String)
  | corrupt (msg : String)
  | invalid (msg : String)
  | typeErr (name : String)
  | op (name : String)
  | release
deriving Repr, DecidableEq

/-- Direction argument of `_runBatch` / `_waterfallBatch`; the source is only
ever called with the strings "up" and "down". -/
inductive Dir where
  | up
  | down
deriving Repr, DecidableEq

/-- Connection/transaction context a statement is issued on: the caller-supplied
outer transaction, a dedicated per-migration transaction opened by
`_transaction`, or the base `knex` connection. -/
inductive Ctx where
  | outer
  | dedicated
  | base
deriving Repr, DecidableEq

/-- One row of the migration-records table: `id` auto-increment primary key,
`name`, `batch` (the `migration_time` column plays no role in any claim). -/
structure MigRecord where
  id : Nat
  name : String
  batch : Int
deriving Repr, DecidableEq

/-- The persisted database state: the singleton lock row (`is_locked`, 0 or 1 in
normal operation), the records table in insertion order, and the auto-increment
counter for `id`. -/
structure DbState where
  is_locked : Nat
  records : List MigRecord
  nextId : Nat
deriving Repr, DecidableEq

/-- A migration module: whether it exposes `up`/`down` functions, whether each
operation succeeds when invoked, and the optional `config.transaction` boolean
override read by `_useTransaction`. -/
structure MigrationDef where
  hasUp : Bool
  hasDown : Bool
  upOk : Bool
  downOk : Bool
  trxConfig : Option Bool
deriving Repr, DecidableEq

/-- The migration configuration slice the claims depend on; `migrationModules`
is the name-keyed object of migration definitions (association list in key
insertion order, keys unique as in a JS object). -/
structure MigConfig where
  loadExtensions : List String
  disableTransactions : Bool
  migrationModules : List (String × MigrationDef)
deriving Repr, DecidableEq

/-- Caller-supplied partial migrations config, merged over the defaults by
`setConfig` (`assign({}, CONFIG_DEFAULT, ..., config)`): an absent key keeps the
default. -/
structure PartialMigConfig where
  loadExtensions : Option (List String)
  disableTransactions : Option Bool
  migrationModules : Option (List (String × MigrationDef))
deriving Repr, DecidableEq

/-- `CONFIG_DEFAULT` from the source, restricted to the fields the claims use:
`disableTransactions` defaults to `true` and `migrationModules` to the empty
object.  `loadExtensions` is the source's extension list. -/
def CONFIG_DEFAULT : MigConfig :=
  { loadExtensions := [".co", ".coffee", ".eg", ".iced", ".js", ".litcoffee", ".ls", ".ts"],
    disableTransactions := true,
    migrationModules := [] }

/-- `setConfig` for a freshly constructed `Migrator`: the caller's config (if
any) is merged over `CONFIG_DEFAULT`, keys the caller leaves out keep their
default value. -/
def setConfig (c : Option PartialMigConfig) : MigConfig :=
  match c with
  | none => CONFIG_DEFAULT
  | some p =>
    { loadExtensions := p.loadExtensions.getD CONFIG_DEFAULT.loadExtensions,
      disableTransactions := p.disableTransactions.getD CONFIG_DEFAULT.disableTransactions,
      migrationModules := p.migrationModules.getD CONFIG_DEFAULT.migrationModules }

/-- Environment flag: whether the single-statement `_freeLock` update succeeds
at the driver.  The source treats the release as best-effort, so its failure
must be representable. -/
structure Env where
  releaseOk : Bool
deriving Repr, DecidableEq

/-- Strict code-point comparison on characters, as JS compares string code
units. -/
def charLtB (a b : Char) : Bool := decide (a.toNat < b.toNat)

/-- Lexicographic strict comparison of character lists; this is the comparison
JS applies to strings (used by the default `Array.prototype.sort` and by
lodash `max` via `>`). -/
def strLt : List Char → List Char → Bool
  | [], [] => false
  | [], _ :: _ => true
  | _ :: _, [] => false
  | a :: as, b :: bs => if charLtB a b then true else if charLtB b a then false else strLt as bs

/-- Non-strict string comparison used to model the default JS sort order. -/
def jsLeStr (a b : String) : Bool := !(strLt b.data a.data)

/-- Insertion step of the sort modelling `Array.prototype.sort()` on strings. -/
def insertStr (x : String) : List String → List String
  | [] => [x]
  | y :: ys => if jsLeStr x y then x :: y :: ys else y :: insertStr x ys

/-- Sorted (ascending, JS default string order) permutation of a string list;
models the `.sort()` call in `_listAll`. -/
def sortStr : List String → List String
  | [] => []
  | x :: xs => insertStr x (sortStr xs)

/-- Helper for `extname`: the extension starting at the last dot of the list,
if any. -/
def extnameAux : List Char → Option (List Char)
  | [] => none
  | c :: cs =>
    match extnameAux cs with
    | some e => some e
    | none => if c = '.' then some (c :: cs) else none

/-- Modelled from the spec: Node's `path.extname` (the one external helper
`_listAll` uses), for plain basenames: the substring from the last dot to the
end, empty when there is no dot or the only dot is the leading character. -/
def extname (s : String) : String :=
  match s.data with
  | [] => ""
  | _ :: rest =>
    match extnameAux rest with
    | some e => String.mk e
    | none => ""

/-- lodash `difference(a, b)`: the elements of `a` (in order) that do not occur
in `b`. -/
def difference (a b : List String) : List String :=
  a.filter (fun x => !(b.contains x))

/-- Key lookup in the `migrationModules` object, i.e.
`this.config.migrationModules[name]`. -/
def lookupDef (cfg : MigConfig) (n : String) : Option MigrationDef :=
  match cfg.migrationModules.find? (fun p => p.1 == n) with
  | some p => some p.2
  | none => none

/-- `_listAll`: the keys of `migrationModules` whose `path.extname` is in
`loadExtensions`, sorted ascending. -/
def listAll (cfg : MigConfig) : List String :=
  sortStr ((cfg.migrationModules.map Prod.fst).filter
    (fun v => cfg.loadExtensions.contains (extname v)))

/-- Insertion step of the sort by `id` ascending (the `orderBy("id")` of
`_listCompleted`). -/
def insertById (r : MigRecord) : List MigRecord → List MigRecord
  | [] => [r]
  | x :: xs => if Nat.ble r.id x.id then r :: x :: xs else x :: insertById r xs

/-- Records sorted by `id` ascending. -/
def orderById : List MigRecord → List MigRecord
  | [] => []
  | x :: xs => insertById x (orderById xs)

/-- Records sorted by `id` descending (the `orderBy("id", "desc")` of
`_getLastBatch`); ids are unique, so this is the reverse of the ascending
order. -/
def orderByIdDesc (rs : List MigRecord) : List MigRecord := (orderById rs).reverse

/-- `_listCompleted`: names of the applied records, ordered by insertion id
ascending.  (`_ensureTable` is the identity here: the embedding works in the
steady state where both tables and the singleton lock row exist, per the
LockRow invariant of the spec.) -/
def listCompletedNames (s : DbState) : List String :=
  (orderById s.records).map MigRecord.name

/-- SQL `max(batch)` over the records table; an empty table yields null, which
`_latestBatchNumber`'s `|| 0` turns into 0 (it also maps an actual 0 to 0). -/
def maxBatch : List MigRecord → Int
  | [] => 0
  | [r] => r.batch
  | r :: r2 :: rs => max r.batch (maxBatch (r2 :: rs))

/-- `_latestBatchNumber`: `max(batch) || 0`. -/
def latestBatchNumber (s : DbState) : Int := maxBatch s.records

/-- `_getLastBatch`: the records whose `batch` equals `max(batch)`, ordered by
`id` descending.  (On an empty table the `where batch = null` subquery matches
no rows, which the empty filter reproduces.) -/
def getLastBatch (s : DbState) : List MigRecord :=
  orderByIdDesc (s.records.filter (fun r => r.batch == maxBatch s.records))

/-- Message of the error `_getLock` throws when the lock row reads truthy. -/
def lockedMsg : String := "Migration table is already locked"

/-- `_isLocked`: the locking read of the singleton lock row's value. -/
def isLockedRead (s : DbState) : Nat := s.is_locked

/-- `_lockMigrations`: `update({ is_locked: 1 })` on the lock table. -/
def lockMigrations (s : DbState) : DbState := { s with is_locked := 1 }

/-- `_getLock`: read the lock row under the surrounding transaction; if truthy,
throw (wrapped into `LockError` by the catch) without writing; else update the
value to 1.  With no outer transaction the source runs the same two statements
inside a fresh transaction, which commits exactly when no error occurred, so
both call shapes have this same state effect. -/
def getLock (s : DbState) : Except MErr Unit × DbState :=
  if isLockedRead s != 0 then (.error (.lock lockedMsg), s)
  else (.ok (), lockMigrations s)

/-- `_freeLock`: the unconditional `update({ is_locked: 0 })`; `env` says
whether the driver statement succeeds. -/
def freeLock (env : Env) (s : DbState) : Except MErr Unit × DbState :=
  if env.releaseOk then (.ok (), { s with is_locked := 0 }) else (.error .release, s)

/-- Message of `_validateMigrationStructure`'s error. -/
def invalidMsg (n : String) : String :=
  "Invalid migration: " ++ n ++ " must have both an up and down function"

/-- `_validateMigrationStructure` for one name: the module must exist (else the
property access on `undefined` raises a TypeError) and expose both `up` and
`down` functions. -/
def validateOne (cfg : MigConfig) (n : String) : Except MErr Unit :=
  match lookupDef cfg n with
  | none => .error (.typeErr n)
  | some d => if d.hasUp && d.hasDown then .ok () else .error (.invalid (invalidMsg n))

/-- The `Promise.all(map(migrations, _validateMigrationStructure))` step: lodash
`map` invokes the validator eagerly in list order, so the first offender's
error is the one that propagates. -/
def validateAll (cfg : MigConfig) : List String → Except MErr Unit
  | [] => .ok ()
  | n :: ns =>
    match validateOne cfg n with
    | .error e => .error e
    | .ok _ => validateAll cfg ns

/-- `_useTransaction`: a boolean per-migration `config.transaction` wins,
otherwise the global flag decides (`!allTransactionsDisabled`); an undefined
module behaves like an undefined override. -/
def useTransaction (m : Option MigrationDef) (allTransactionsDisabled : Bool) : Bool :=
  match m with
  | some d =>
    match d.trxConfig with
    | some b => b
    | none => !allTransactionsDisabled
  | none => !allTransactionsDisabled

/-- One observable step of `_waterfallBatch`: which migration's operation was
invoked, on which context it ran, and (if it succeeded) on which context the
matching record mutation was issued (`none` when the operation failed and no
record statement ran). -/
structure TraceEntry where
  name : String
  opCtx : Ctx
  recCtx : Option Ctx
deriving Repr, DecidableEq

/-- The record mutation `_waterfallBatch` issues after a successful operation:
an insert carrying `name`, `batch` and timestamp for "up"; a delete-by-name for
"down". -/
def applyRecord (s : DbState) (n : String) (dir : Dir) (batchNo : Int) : DbState :=
  match dir with
  | .up =>
    { s with records := s.records ++ [⟨s.nextId, n, batchNo⟩], nextId := s.nextId + 1 }
  | .down => { s with records := s.records.filter (fun r => !(r.name == n)) }

/-- `_waterfallBatch`: run the migrations sequentially.  For each name: if no
outer transaction was supplied and `_useTransaction` resolves to true, the
operation runs inside its own dedicated transaction (`_transaction`); otherwise
it runs on `trxOrKnex` (the outer transaction if supplied, else the base knex
connection).  On success the record mutation is issued on `trxOrKnex` and the
name is pushed onto the log; the first failure aborts the remaining
sequence. -/
def waterfall (cfg : MigConfig) (batchNo : Int) (dir : Dir) (hasTrx : Bool) :
    List String → DbState → (Except MErr (List String)) × DbState × List TraceEntry
  | [], s => (.ok [], s, [])
  | n :: ns, s =>
    match lookupDef cfg n with
    | none => (.error (.typeErr n), s, [])
    | some d =>
      let opCtx := if !hasTrx && useTransaction (some d) cfg.disableTransactions
        then Ctx.dedicated else if hasTrx then Ctx.outer else Ctx.base
      let opOk := match dir with | .up => d.upOk | .down => d.downOk
      if opOk then
        let recCtx := if hasTrx then Ctx.outer else Ctx.base
        let r := waterfall cfg batchNo dir hasTrx ns (applyRecord s n dir batchNo)
        (r.1.map (fun log => n :: log), r.2.1, ⟨n, opCtx, some recCtx⟩ :: r.2.2)
      else (.error (.op n), s, [⟨n, opCtx, none⟩])

/-- The batch number `_runBatch` computes: `lastBatch + 1` for "up", unchanged
for "down". -/
def batchNoFor (dir : Dir) (s : DbState) : Int :=
  match dir with
  | .up => latestBatchNumber s + 1
  | .down => latestBatchNumber s

/-- Whether an error is the `LockError` the catch of `_runBatch` branches on. -/
def isLockErr : MErr → Bool
  | .lock _ => true
  | _ => false

/-- `_runBatch`: acquire the lock; re-read the applied names (only when an outer
transaction was supplied) and subtract them from the input names; validate the
remaining modules; compute the batch number; run the waterfall; release the
lock on success (`tap`).  The catch releases the lock on any failure except a
`LockError` and rethrows the original error even when that cleanup release
itself fails (`cleanupReady.finally(() => { throw error })`). -/
def runBatch (cfg : MigConfig) (env : Env) (migrations : List String) (dir : Dir)
    (hasTrx : Bool) (s : DbState) :
    (Except MErr (Int × List String)) × DbState × List TraceEntry :=
  match getLock s with
  | (.error e, s0) => (.error e, s0, [])
  | (.ok _, s1) =>
    let completed := if hasTrx then listCompletedNames s1 else []
    let migs := difference migrations completed
    match validateAll cfg migs with
    | .error e => (.error e, (freeLock env s1).2, [])
    | .ok _ =>
      let batchNo := batchNoFor dir s1
      match waterfall cfg batchNo dir hasTrx migs s1 with
      | (.error e, s2, tr) => (.error e, (freeLock env s2).2, tr)
      | (.ok log, s2, tr) =>
        match freeLock env s2 with
        | (.ok _, s3) => (.ok (batchNo, log), s3, tr)
        | (.error e2, s3) => (.error e2, (freeLock env s3).2, tr)

/-- Message of the corrupt-directory error of `validateMigrationList`. -/
def corruptMsg (missing : List String) : String :=
  "The migration directory is corrupt, the following files are missing: " ++
    String.intercalate ", " missing

/-- `knex.transaction(fn)` around a whole batch: commit keeps the callback's
final state; a rejection rolls every write of the transaction back, restoring
the state the transaction started from. -/
def knexTransaction
    (f : DbState → (Except MErr (Int × List String)) × DbState × List TraceEntry)
    (s : DbState) : (Except MErr (Int × List String)) × DbState × List TraceEntry :=
  match f s with
  | (.ok v, s2, tr) => (.ok v, s2, tr)
  | (.error e, _, tr) => (.error e, s, tr)

/-- `latest()`: compute `AllDefined` and `Applied`, validate `Applied ⊆
AllDefined` (`validateMigrationList` in the `tap`), subtract to get the pending
set, and run it as an "up" batch — wrapped in one shared transaction exactly
when transactions are globally enabled and no pending migration opts out (note
the source calls `_useTransaction(migration)` there with the second argument
omitted).  The `Bool` in the result records whether the shared-transaction
branch was taken. -/
def latest (cfg : MigConfig) (env : Env) (s : DbState) :
    (Except MErr (Int × List String)) × DbState × Bool × List TraceEntry :=
  let all := listAll cfg
  let completed := listCompletedNames s
  let missing := difference completed all
  if missing.isEmpty then
    let migrations := difference all completed
    let transactionForAll :=
      !cfg.disableTransactions &&
        (migrations.filter (fun n => !(useTransaction (lookupDef cfg n) false))).isEmpty
    if transactionForAll then
      let r := knexTransaction (fun st => runBatch cfg env migrations Dir.up true st) s
      (r.1, r.2.1, true, r.2.2)
    else
      let r := runBatch cfg env migrations Dir.up false s
      (r.1, r.2.1, false, r.2.2)
  else (.error (.corrupt (corruptMsg missing)), s, false, [])

/-- `rollback()`: validate `Applied ⊆ AllDefined`, select the records of the
last batch (by `_getLastBatch`, id descending), and run their names as a "down"
batch with no outer transaction. -/
def rollback (cfg : MigConfig) (env : Env) (s : DbState) :
    (Except MErr (Int × List String)) × DbState × List TraceEntry :=
  let all := listAll cfg
  let completed := listCompletedNames s
  let missing := difference completed all
  if missing.isEmpty then
    runBatch cfg env ((getLastBatch s).map MigRecord.name) Dir.down false s
  else (.error (.corrupt (corruptMsg missing)), s, [])

/-- `status()`: `db.length - code.length`, the row count of the records table
minus the number of defined migrations. -/
def status (cfg : MigConfig) (s : DbState) : Int :=
  (s.records.length : Int) - ((listAll cfg).length : Int)

/-- The `value.split("_")[0]` of `currentVersion`. -/
def versionToken (name : String) : String := (name.splitOn "_").headD ""

/-- lodash `max` on strings: `undefined` on an empty array, else the running
maximum under JS string comparison. -/
def jsMaxString : List String → Option String
  | [] => none
  | x :: xs => some (xs.foldl (fun acc b => if strLt acc.data b.data then b else acc) x)

/-- `currentVersion()`: the maximum of the pre-underscore tokens of the applied
names, or the sentinel "none" when no migration has been applied. -/
def currentVersion (s : DbState) : String :=
  match jsMaxString ((listCompletedNames s).map versionToken) with
  | none => "none"
  | some v => v

/-- A JS error object: `id` stands for the object's reference identity,
`message` for its mutable message field. -/
structure JsError where
  id : Nat
  message : String
deriving Repr, DecidableEq

/-- The notifications `Client.query` emits. -/
inductive QEvent where
  | query (sql : String) (bindings : List String)
  | queryError (err : JsError) (sql : String) (bindings : List String)
deriving Repr, DecidableEq

/-- Scanner of `_formatQuery`'s `sql.replace(/\\?\?/g, ...)`: a literal `\?`
becomes `?`; a `?` placeholder is replaced by the escaped next binding, or kept
once the bindings are exhausted; everything else is copied. -/
def formatQueryAux (esc : String → String) : List Char → List String → List Char
  | [], _ => []
  | '\\' :: '?' :: rest, bs => '?' :: formatQueryAux esc rest bs
  | '?' :: rest, [] => '?' :: formatQueryAux esc rest []
  | '?' :: rest, b :: bs => (esc b).data ++ formatQueryAux esc rest bs
  | c :: rest, bs => c :: formatQueryAux esc rest bs

/-- `Client._formatQuery`: render the SQL with the bindings substituted via the
dialect's escape hook (`_escapeBinding`, passed in as `esc`). -/
def formatQuery (esc : String → String) (sql : String) (bindings : List String) : String :=
  String.mk (formatQueryAux esc sql.data bindings)

/-- `Client.query` for the claims' purposes (the base client's
`positionBindings`/`prepBindings` are identities): emit the `query` event, run
the driver statement; on driver failure mutate the received error's message to
the rendered SQL, a " - " separator and the original message, emit
`query-error` with that same object, and rethrow it. -/
def clientQuery (esc : String → String) (sql : String) (bindings : List String)
    (driverResult : Except JsError Unit) : Except JsError Unit × List QEvent :=
  match driverResult with
  | .ok u => (.ok u, [QEvent.query sql bindings])
  | .error err =>
    let err2 : JsError := ⟨err.id, formatQuery esc sql bindings ++ " - " ++ err.message⟩
    (.error err2, [QEvent.query sql bindings, QEvent.queryError err2 sql bindings])

/-- A migration module exposing both operations, both succeeding, with no
per-migration transaction override. -/
def defOk : MigrationDef := ⟨true, true, true, true, none⟩

/-- Environment in which the `_freeLock` statement succeeds. -/
def envT : Env := ⟨true⟩

/-- One-module configuration with transactions globally disabled (the
default). -/
def cfgA : MigConfig := ⟨[".js"], true, [("a.js", defOk)]⟩

/-- Two-module configuration with transactions globally disabled. -/
def cfgAB : MigConfig := ⟨[".js"], true, [("a.js", defOk), ("b.js", defOk)]⟩

/-- One-module configuration with transactions globally enabled. -/
def cfgB : MigConfig := ⟨[".js"], false, [("a.js", defOk)]⟩

/-- Configuration defining no migrations at all. -/
def cfgE : MigConfig := ⟨[".js"], true, []⟩

/-- Empty unlocked database. -/
def st0 : DbState := ⟨0, [], 1⟩

/-- Unlocked database with `a.js` applied in batch 1. -/
def stA : DbState := ⟨0, [⟨1, "a.js", 1⟩], 2⟩

/-- Database whose lock row is held. -/
def stL : DbState := ⟨1, [], 1⟩

/-- The records an "up" waterfall over `ns` appends: one per name, consecutive
ids starting at `i`, all in batch `b`. -/
def mkInserts : List String → Int → Nat → List MigRecord
  | [], _, _ => []
  | n :: ns, b, i => ⟨i, n, b⟩ :: mkInserts ns b (i + 1)

/-- The record-table effect of a "down" waterfall over `ns`: successive
delete-by-name statements. -/
def removeNames : List String → List MigRecord → List MigRecord
  | [], rs => rs
  | n :: ns, rs => removeNames ns (rs.filter (fun r => !(r.name == n)))

/-- Taking the length of the left list from an append returns the left list. -/
theorem listTakeAppendLeft {α : Type} (l₁ l₂ : List α) : (l₁ ++ l₂).take l₁.length = l₁ := by
  induction l₁ with
  | nil => rfl
  | cons x xs ih => exact congrArg (List.cons x) ih

/-- Every trace entry of a waterfall run names a module that exists, carries the
operation context the source computes from `_useTransaction`, and (when a
record statement ran) the `trxOrKnex` context. -/
theorem waterfall_trace (cfg : MigConfig) (b : Int) (dir : Dir) (t : Bool) :
    ∀ (ns : List String) (s : DbState), ∀ e ∈ (waterfall cfg b dir t ns s).2.2,
      (∃ d, lookupDef cfg e.name = some d
        ∧ e.opCtx = (if !t && useTransaction (some d) cfg.disableTransactions
            then Ctx.dedicated else if t then Ctx.outer else Ctx.base))
      ∧ (e.recCtx = none ∨ e.recCtx = some (if t then Ctx.outer else Ctx.base)) := by
  intro ns
  induction ns with
  | nil => intro s e he; simp [waterfall] at he
  | cons n ns ih =>
    intro s e he
    simp only [waterfall] at he
    cases hm : lookupDef cfg n with
    | none => rw [hm] at he; simp at he
    | some d =>
      rw [hm] at he
      simp only at he
      cases hok : (match dir with | Dir.up => d.upOk | Dir.down => d.downOk) with
      | true =>
        rw [hok] at he
        simp only [if_true, List.mem_cons] at he
        rcases he with he | he
        · subst he
          refine ⟨⟨d, hm, rfl⟩, Or.inr rfl⟩
        · exact ih (applyRecord s n dir b) e he
      | false =>
        rw [hok] at he
        rw [if_neg (by decide : ¬(false = true))] at he
        rw [List.mem_singleton] at he
        subst he
        exact ⟨⟨d, hm, rfl⟩, Or.inl rfl⟩

/-- The trace of `_runBatch` is exactly a waterfall trace (the other branches
produce no trace entries). -/
theorem runBatch_trace_sub (cfg : MigConfig) (env : Env) (migs : List String) (dir : Dir)
    (hasTrx : Bool) (s : DbState) :
    ∀ e ∈ (runBatch cfg env migs dir hasTrx s).2.2,
      (∃ d, lookupDef cfg e.name = some d
        ∧ e.opCtx = (if !hasTrx && useTransaction (some d) cfg.disableTransactions
            then Ctx.dedicated else if hasTrx then Ctx.outer else Ctx.base))
      ∧ (e.recCtx = none ∨ e.recCtx = some (if hasTrx then Ctx.outer else Ctx.base)) := by
  intro e he
  unfold runBatch at he
  rcases hg : getLock s with ⟨r1, s1⟩
  rw [hg] at he
  cases r1 with
  | error e1 => simp at he
  | ok u =>
    simp only at he
    cases hv : validateAll cfg
        (difference migs (if hasTrx then listCompletedNames s1 else [])) with
    | error e1 => rw [hv] at he; simp at he
    | ok u2 =>
      rw [hv] at he
      simp only at he
      rcases hw : waterfall cfg (batchNoFor dir s1) dir hasTrx
          (difference migs (if hasTrx then listCompletedNames s1 else [])) s1 with ⟨rw1, s2, tr⟩
      rw [hw] at he
      have hsub : e ∈ tr := by
        cases rw1 with
        | error e1 => simpa using he
        | ok log =>
          simp only at he
          rcases hf : freeLock env s2 with ⟨fr, fs⟩
          rw [hf] at he
          cases fr with
          | ok u3 => simpa using he
          | error e3 => simpa using he
      have hsub2 : e ∈ (waterfall cfg (batchNoFor dir s1) dir hasTrx
          (difference migs (if hasTrx then listCompletedNames s1 else [])) s1).2.2 := by
        rw [hw]; exact hsub
      exact waterfall_trace cfg (batchNoFor dir s1) dir hasTrx _ s1 e hsub2

/-- C1: for the lock-acquisition step `_getLock` performed by `_runBatch` (the
same two-statement body runs whether or not an outer transaction is supplied),
under the LockRow invariant that the stored value is 0 or 1: the call fails
with `LockError` if and only if the locking read returns `is_locked == 1`; on
that failure the lock row's stored value — indeed the whole database state —
is unchanged; on success the value transitions from 0 to 1. -/
theorem C1_lock_acquire (s : DbState) (hInv : s.is_locked = 0 ∨ s.is_locked = 1) :
    ((∃ m, (getLock s).1 = .error (.lock m)) ↔ s.is_locked = 1)
    ∧ ((∃ m, (getLock s).1 = .error (.lock m)) → (getLock s).2 = s)
    ∧ ((getLock s).1 = .ok () → s.is_locked = 0 ∧ (getLock s).2.is_locked = 1) := by
  rcases hInv with h | h
  · refine ⟨?_, ?_, ?_⟩
    · constructor
      · intro ⟨m, hm⟩
        rw [show getLock s = (.ok (), lockMigrations s) from by
          simp [getLock, isLockedRead, h]] at hm
        exact absurd hm (by simp)
      · intro h1; rw [h] at h1; exact absurd h1 (by decide)
    · intro ⟨m, hm⟩
      rw [show getLock s = (.ok (), lockMigrations s) from by
        simp [getLock, isLockedRead, h]] at hm
      exact absurd hm (by simp)
    · intro _
      refine ⟨h, ?_⟩
      rw [show getLock s = (.ok (), lockMigrations s) from by
        simp [getLock, isLockedRead, h]]
      rfl
  · have hG : getLock s = (.error (.lock lockedMsg), s) := by
      simp [getLock, isLockedRead, h]
    refine ⟨?_, ?_, ?_⟩
    · exact ⟨fun _ => h, fun _ => ⟨lockedMsg, by rw [hG]⟩⟩
    · intro _; rw [hG]
    · intro h1; rw [hG] at h1; exact absurd h1 (by simp)

/-- C1 witness: on the free lock row, acquisition succeeds and flips the value
from 0 to 1. -/
theorem C1_lock_acquire_witness : st0.is_locked = 0 ∧ (getLock st0).2.is_locked = 1 :=
  (C1_lock_acquire st0 (Or.inl rfl)).2.2 rfl

/-- C5 counterexample: with transactions enabled and no outer transaction, the
migration `a.js` runs inside its own dedicated per-migration transaction, yet
its record insert is issued on the base knex connection — not on the context
the operation just ran under, contradicting the claim's "including when the
migration ran inside its own dedicated per-migration transaction". -/
theorem C5_record_context_cex :
    (runBatch cfgB envT ["a.js"] Dir.up false st0).2.2
      = [⟨"a.js", Ctx.dedicated, some Ctx.base⟩]
    ∧ Ctx.base ≠ Ctx.dedicated := ⟨rfl, by decide⟩

/-- C5 (amended): every record mutation `_waterfallBatch` issues runs on
`trxOrKnex` — the outer transaction when one was supplied, else the base knex
connection. This coincides with the context the migration's operation ran
under except when the operation ran in its own dedicated per-migration
transaction. -/
theorem C5_record_context (cfg : MigConfig) (env : Env) (migs : List String) (dir : Dir)
    (hasTrx : Bool) (s : DbState) :
    ∀ e ∈ (runBatch cfg env migs dir hasTrx s).2.2, ∀ c, e.recCtx = some c →
      (c = if hasTrx then Ctx.outer else Ctx.base)
      ∧ (e.opCtx ≠ Ctx.dedicated → c = e.opCtx) := by
  intro e he c hc
  obtain ⟨⟨d, _, hop⟩, hrec⟩ := runBatch_trace_sub cfg env migs dir hasTrx s e he
  rcases hrec with hnone | hsome
  · rw [hnone] at hc; exact absurd hc (by simp)
  · rw [hsome] at hc
    have hcv : c = if hasTrx then Ctx.outer else Ctx.base := by
      exact (Option.some.inj hc).symm
    refine ⟨hcv, ?_⟩
    intro hnd
    rw [hop]
    cases hcond : (!hasTrx && useTransaction (some d) cfg.disableTransactions) with
    | true => rw [hop, if_pos hcond] at hnd; exact absurd rfl hnd
    | false => rw [if_neg (by simp [hcond])]; exact hcv

/-- C5 witness: a concrete entry of a default-configuration run, whose record
insert ran on the base connection, matching the operation's own context. -/
theorem C5_record_context_witness :
    (Ctx.base = if false then Ctx.outer else Ctx.base)
    ∧ ((⟨"a.js", Ctx.base, some Ctx.base⟩ : TraceEntry).opCtx ≠ Ctx.dedicated
        → Ctx.base = (⟨"a.js", Ctx.base, some Ctx.base⟩ : TraceEntry).opCtx) :=
  C5_record_context cfgA envT ["a.js"] Dir.up false st0
    ⟨"a.js", Ctx.base, some Ctx.base⟩ (by decide) Ctx.base rfl

/-- C6: when some applied record's name is missing from the defined set, both
`latest()` and `rollback()` fail with the corrupt-directory error whose message
lists exactly the names of `Applied − AllDefined` (joined with ", "), with the
database state unchanged, no migration executed (empty trace) and no record or
lock-row write. -/
theorem C6_corrupt_abort (cfg : MigConfig) (env : Env) (s : DbState)
    (h : difference (listCompletedNames s) (listAll cfg) ≠ []) :
    latest cfg env s
      = (.error (.corrupt (corruptMsg (difference (listCompletedNames s) (listAll cfg)))),
         s, false, [])
    ∧ rollback cfg env s
      = (.error (.corrupt (corruptMsg (difference (listCompletedNames s) (listAll cfg)))),
         s, []) := by
  have hIE : (difference (listCompletedNames s) (listAll cfg)).isEmpty = false := by
    cases hd : difference (listCompletedNames s) (listAll cfg) with
    | nil => exact absurd hd h
    | cons a l => rfl
  constructor
  · simp [latest, hIE]
  · simp [rollback, hIE]

/-- C6 witness: a database with `a.js` applied but no modules defined fails
with the corrupt-directory error naming `a.js`, state unchanged. -/
theorem C6_corrupt_abort_witness :
    latest cfgE envT stA
      = (.error (.corrupt (corruptMsg (difference (listCompletedNames stA) (listAll cfgE)))),
         stA, false, []) :=
  (C6_corrupt_abort cfgE envT stA (by decide)).1

/-- C7 counterexample: with one defined migration and no applied records,
`status()` returns -1, while the claimed `len(AllDefined) - len(Applied)` is 1:
the code computes the subtraction in the opposite direction. -/
theorem C7_status_cex :
    status cfgA st0 = -1
    ∧ ((listAll cfgA).length : Int) - ((st0.records).length : Int) = 1
    ∧ status cfgA st0 ≠ ((listAll cfgA).length : Int) - ((st0.records).length : Int) := by
  refine ⟨by decide, by decide, by decide⟩

/-- C7 (amended): `status()` returns `len(Applied) - len(AllDefined)` (the
record count minus the defined count, possibly negative), and it returns 0
exactly when the two sets have equal cardinality. -/
theorem C7_status_drift (cfg : MigConfig) (s : DbState) :
    status cfg s = (s.records.length : Int) - ((listAll cfg).length : Int)
    ∧ (status cfg s = 0 ↔ s.records.length = (listAll cfg).length) := by
  refine ⟨rfl, ?_⟩
  unfold status
  omega

/-- C8 counterexample: the rendered SQL is prepended, not appended: for the
driver error "boom" on `select ?` bound to `1`, the rethrown message is
"select 1 - boom", which does not extend the original message "boom" by any
suffix. -/
theorem C8_error_wrap_cex :
    (clientQuery (fun c => c) "select ?" ["1"] (.error ⟨7, "boom"⟩)).1
      = .error ⟨7, "select 1 - boom"⟩
    ∧ ∀ t : List Char, ("select 1 - boom").data ≠ ("boom").data ++ t := by
  refine ⟨rfl, ?_⟩
  intro t h
  have h2 := congrArg (List.take ("boom").data.length) h
  rw [listTakeAppendLeft] at h2
  exact absurd h2 (by decide)

/-- C8 (amended): on driver failure `Client.query` rethrows the very same error
object (identity preserved), with its message replaced by the rendered SQL
(bindings substituted), the separator " - ", and then the original message
(SQL prepended, not appended), and it emits a `query-error` notification
carrying exactly that error before the rethrow reaches the caller. -/
theorem C8_error_wrap (esc : String → String) (sql : String) (bindings : List String)
    (err : JsError) :
    (clientQuery esc sql bindings (.error err)).1
      = .error ⟨err.id, formatQuery esc sql bindings ++ " - " ++ err.message⟩
    ∧ (∀ e2, (clientQuery esc sql bindings (.error err)).1 = .error e2 → e2.id = err.id)
    ∧ QEvent.queryError ⟨err.id, formatQuery esc sql bindings ++ " - " ++ err.message⟩
        sql bindings ∈ (clientQuery esc sql bindings (.error err)).2 := by
  refine ⟨rfl, ?_, ?_⟩
  · intro e2 h
    simp only [clientQuery] at h
    rw [← Except.error.inj h]
  · simp [clientQuery]

/-- C8 witness: identity preservation at a concrete input — the rethrown error
object is the received one (id 7). -/
theorem C8_error_wrap_witness :
    (⟨7, "select 1 - boom"⟩ : JsError).id = (⟨7, "boom"⟩ : JsError).id :=
  (C8_error_wrap (fun c => c) "select ?" ["1"] ⟨7, "boom"⟩).2.1
    ⟨7, "select 1 - boom"⟩ rfl

/-- Inversion of `_getLock` failure: the error is the wrapped `LockError` and
no write occurred. -/
theorem getLock_err_inv (s : DbState) (e : MErr) (s1 : DbState)
    (h : getLock s = (.error e, s1)) : e = .lock lockedMsg ∧ s1 = s := by
  unfold getLock at h
  by_cases hc : (isLockedRead s != 0) = true
  · rw [if_pos hc] at h
    injection h with h1 h2
    injection h1 with h3
    exact ⟨h3.symm, h2.symm⟩
  · rw [if_neg hc] at h
    injection h with h1 h2
    cases h1

/-- Inversion of `_getLock` success: the read returned 0 and the value was
updated to 1. -/
theorem getLock_ok_inv (s : DbState) (u : Unit) (s1 : DbState)
    (h : getLock s = (.ok u, s1)) :
    s.is_locked = 0 ∧ s1 = { s with is_locked := 1 } := by
  unfold getLock at h
  by_cases hc : (isLockedRead s != 0) = true
  · rw [if_pos hc] at h
    injection h with h1 h2
    cases h1
  · rw [if_neg hc] at h
    injection h with h1 h2
    refine ⟨?_, h2.symm⟩
    simpa [isLockedRead, bne_iff_ne, not_not] using hc

/-- The lock value after a `_freeLock` attempt: 0 when the statement succeeded,
unchanged when the driver failed. -/
theorem freeLock_lockVal (env : Env) (s : DbState) :
    (freeLock env s).2.is_locked = if env.releaseOk then 0 else s.is_locked := by
  unfold freeLock
  cases h : env.releaseOk <;> simp [h]

/-- Inversion of a successful `_freeLock`. -/
theorem freeLock_ok_inv (env : Env) (s : DbState) (u : Unit) (fs : DbState)
    (h : freeLock env s = (.ok u, fs)) :
    env.releaseOk = true ∧ fs = { s with is_locked := 0 } := by
  unfold freeLock at h
  cases hc : env.releaseOk
  · rw [hc, if_neg (by decide : ¬(false = true))] at h
    injection h with h1 h2
    cases h1
  · rw [hc, if_pos rfl] at h
    injection h with h1 h2
    exact ⟨rfl, h2.symm⟩

/-- Inversion of a failed `_freeLock`. -/
theorem freeLock_err_inv (env : Env) (s : DbState) (e : MErr) (fs : DbState)
    (h : freeLock env s = (.error e, fs)) :
    env.releaseOk = false ∧ e = .release ∧ fs = s := by
  unfold freeLock at h
  cases hc : env.releaseOk
  · rw [hc, if_neg (by decide : ¬(false = true))] at h
    injection h with h1 h2
    injection h1 with h3
    exact ⟨rfl, h3.symm, h2.symm⟩
  · rw [hc, if_pos rfl] at h
    injection h with h1 h2
    cases h1

/-- `_validateMigrationStructure` never produces a `LockError`. -/
theorem validateOne_not_lock (cfg : MigConfig) (n : String) (e : MErr)
    (h : validateOne cfg n = .error e) : isLockErr e = false := by
  unfold validateOne at h
  rcases hm : lookupDef cfg n with _ | d
  · rw [hm] at h
    injection h with h1
    rw [← h1]
    rfl
  · rw [hm] at h
    simp only at h
    by_cases hd : (d.hasUp && d.hasDown) = true
    · rw [if_pos hd] at h; cases h
    · rw [if_neg hd] at h
      injection h with h1
      rw [← h1]
      rfl

/-- The validation pass never produces a `LockError`. -/
theorem validateAll_not_lock (cfg : MigConfig) :
    ∀ (ns : List String) (e : MErr), validateAll cfg ns = .error e → isLockErr e = false := by
  intro ns
  induction ns with
  | nil => intro e h; cases h
  | cons n ns ih =>
    intro e h
    simp only [validateAll] at h
    cases hv : validateOne cfg n with
    | error e1 =>
      rw [hv] at h
      simp only at h
      injection h with h1
      rw [← h1]
      exact validateOne_not_lock cfg n e1 hv
    | ok u =>
      rw [hv] at h
      exact ih e h

/-- Mapping over an `Except` preserves and reflects errors. -/
theorem exceptMapError {α β : Type} (f : α → β) (x : Except MErr α) (e : MErr) :
    x.map f = .error e ↔ x = .error e := by
  cases x <;> simp [Except.map]

/-- `_waterfallBatch` never produces a `LockError`: its failures are operation
failures or the TypeError of a missing module. -/
theorem waterfall_not_lock (cfg : MigConfig) (b : Int) (dir : Dir) (t : Bool) :
    ∀ (ns : List String) (s : DbState) (e : MErr),
      (waterfall cfg b dir t ns s).1 = .error e → isLockErr e = false := by
  intro ns
  induction ns with
  | nil => intro s e h; cases h
  | cons n ns ih =>
    intro s e h
    simp only [waterfall] at h
    cases hm : lookupDef cfg n with
    | none =>
      rw [hm] at h
      injection h with h1
      rw [← h1]
      rfl
    | some d =>
      rw [hm] at h
      simp only at h
      cases hok : (match dir with | Dir.up => d.upOk | Dir.down => d.downOk) with
      | true =>
        rw [hok, if_pos rfl] at h
        rw [exceptMapError] at h
        exact ih (applyRecord s n dir b) e h
      | false =>
        rw [hok, if_neg (by decide : ¬(false = true))] at h
        injection h with h1
        rw [← h1]
        rfl

/-- The record mutations never touch the lock row. -/
theorem applyRecord_lock (s : DbState) (n : String) (dir : Dir) (b : Int) :
    (applyRecord s n dir b).is_locked = s.is_locked := by
  cases dir <;> rfl

/-- `_waterfallBatch` leaves the lock row's value unchanged. -/
theorem waterfall_lock (cfg : MigConfig) (b : Int) (dir : Dir) (t : Bool) :
    ∀ (ns : List String) (s : DbState),
      (waterfall cfg b dir t ns s).2.1.is_locked = s.is_locked := by
  intro ns
  induction ns with
  | nil => intro s; rfl
  | cons n ns ih =>
    intro s
    simp only [waterfall]
    cases hm : lookupDef cfg n with
    | none => rfl
    | some d =>
      simp only
      cases hok : (match dir with | Dir.up => d.upOk | Dir.down => d.downOk) with
      | true =>
        rw [if_pos rfl]
        simp only
        rw [ih (applyRecord s n dir b), applyRecord_lock]
      | false =>
        rw [if_neg (by decide : ¬(false = true))]

/-- Exhaustive outcome description of `_runBatch`: a `LockError` failure leaves
the state untouched; any other failure has the lock cleaned up exactly when
the release statement succeeds; a success ends with the lock released. -/
theorem runBatch_cases (cfg : MigConfig) (env : Env) (migs : List String) (dir : Dir)
    (hasTrx : Bool) (s : DbState) :
    (∃ m, (runBatch cfg env migs dir hasTrx s).1 = .error (.lock m)
        ∧ (runBatch cfg env migs dir hasTrx s).2.1 = s)
    ∨ (∃ e, (runBatch cfg env migs dir hasTrx s).1 = .error e ∧ isLockErr e = false
        ∧ (runBatch cfg env migs dir hasTrx s).2.1.is_locked
            = (if env.releaseOk then 0 else 1))
    ∨ (∃ v, (runBatch cfg env migs dir hasTrx s).1 = .ok v
        ∧ (runBatch cfg env migs dir hasTrx s).2.1.is_locked = 0) := by
  unfold runBatch
  rcases hg : getLock s with ⟨r1, s1⟩
  cases r1 with
  | error e1 =>
    obtain ⟨he1, hs1⟩ := getLock_err_inv s e1 s1 hg
    left
    rw [he1]
    exact ⟨lockedMsg, rfl, hs1⟩
  | ok u =>
    obtain ⟨hs0, hs1⟩ := getLock_ok_inv s u s1 hg
    simp only
    cases hv : validateAll cfg (difference migs (if hasTrx then listCompletedNames s1 else [])) with
    | error e1 =>
      right; left
      refine ⟨e1, rfl, validateAll_not_lock cfg _ e1 hv, ?_⟩
      rw [freeLock_lockVal, hs1]
    | ok u2 =>
      simp only
      rcases hw : waterfall cfg (batchNoFor dir s1) dir hasTrx
          (difference migs (if hasTrx then listCompletedNames s1 else [])) s1 with ⟨rw1, s2, tr⟩
      have hl2 : s2.is_locked = 1 := by
        have := waterfall_lock cfg (batchNoFor dir s1) dir hasTrx
          (difference migs (if hasTrx then listCompletedNames s1 else [])) s1
        rw [hw, hs1] at this
        exact this
      cases rw1 with
      | error e1 =>
        right; left
        refine ⟨e1, rfl, ?_, ?_⟩
        · have hfst : (waterfall cfg (batchNoFor dir s1) dir hasTrx
              (difference migs (if hasTrx then listCompletedNames s1 else [])) s1).1
              = .error e1 := by rw [hw]
          exact waterfall_not_lock cfg (batchNoFor dir s1) dir hasTrx _ s1 e1 hfst
        · rw [freeLock_lockVal, hl2]
      | ok log =>
        simp only
        rcases hf : freeLock env s2 with ⟨fr, fs⟩
        cases fr with
        | ok u3 =>
          obtain ⟨hrel, hfs⟩ := freeLock_ok_inv env s2 u3 fs hf
          right; right
          exact ⟨(batchNoFor dir s1, log), rfl, by rw [hfs]⟩
        | error e2 =>
          obtain ⟨hrel, he2, hfs⟩ := freeLock_err_inv env s2 e2 fs hf
          right; left
          refine ⟨e2, rfl, by rw [he2]; rfl, ?_⟩
          rw [freeLock_lockVal, hrel, hfs]
          simp [hl2]

/-- C2: for every `_runBatch` execution: a `LockError` failure leaves the whole
database state (in particular the lock row) unwritten by cleanup; on any other
failure a best-effort release is attempted (the lock ends 0 exactly when the
release statement succeeds, else stays 1) and the original error object is
rethrown unmodified regardless of whether the release succeeded (the outcome
error is independent of the release environment); on success the lock is
released. -/
theorem C2_lock_cleanup (cfg : MigConfig) (env : Env) (migs : List String) (dir : Dir)
    (hasTrx : Bool) (s : DbState) :
    (∀ m, (runBatch cfg env migs dir hasTrx s).1 = .error (.lock m) →
      (runBatch cfg env migs dir hasTrx s).2.1 = s)
    ∧ (∀ e, (runBatch cfg env migs dir hasTrx s).1 = .error e → isLockErr e = false →
      (runBatch cfg env migs dir hasTrx s).2.1.is_locked = (if env.releaseOk then 0 else 1))
    ∧ (∀ v, (runBatch cfg env migs dir hasTrx s).1 = .ok v →
      (runBatch cfg env migs dir hasTrx s).2.1.is_locked = 0)
    ∧ (∀ e, (runBatch cfg ⟨true⟩ migs dir hasTrx s).1 = .error e →
      (runBatch cfg ⟨false⟩ migs dir hasTrx s).1 = .error e) := by
  refine ⟨?_, ?_, ?_, ?_⟩
  · intro m hm
    rcases runBatch_cases cfg env migs dir hasTrx s with ⟨m2, h1, h2⟩ | ⟨e, h1, h2, h3⟩ | ⟨v, h1, h2⟩
    · exact h2
    · rw [hm] at h1
      injection h1 with h4
      rw [← h4] at h2
      cases h2
    · rw [hm] at h1; cases h1
  · intro e he hnl
    rcases runBatch_cases cfg env migs dir hasTrx s with ⟨m2, h1, h2⟩ | ⟨e2, h1, h2, h3⟩ | ⟨v, h1, h2⟩
    · rw [he] at h1
      injection h1 with h4
      rw [h4] at hnl
      cases hnl
    · exact h3
    · rw [he] at h1; cases h1
  · intro v hv
    rcases runBatch_cases cfg env migs dir hasTrx s with ⟨m2, h1, h2⟩ | ⟨e2, h1, h2, h3⟩ | ⟨v2, h1, h2⟩
    · rw [hv] at h1; cases h1
    · rw [hv] at h1; cases h1
    · exact h2
  · intro e he
    unfold runBatch at he ⊢
    rcases hg : getLock s with ⟨r1, s1⟩
    rw [hg] at he
    cases r1 with
    | error e1 => exact he
    | ok u =>
      simp only at he ⊢
      cases hv : validateAll cfg
          (difference migs (if hasTrx then listCompletedNames s1 else [])) with
      | error e1 =>
        rw [hv] at he
        exact he
      | ok u2 =>
        rw [hv] at he
        simp only at he ⊢
        rcases hw : waterfall cfg (batchNoFor dir s1) dir hasTrx
            (difference migs (if hasTrx then listCompletedNames s1 else [])) s1 with ⟨rw1, s2, tr⟩
        rw [hw] at he
        cases rw1 with
        | error e1 => exact he
        | ok log =>
          simp only at he
          rw [show freeLock ⟨true⟩ s2 = (.ok (), { s2 with is_locked := 0 }) from rfl] at he
          simp at he

/-- C2 witness: a `LockError` failure (lock already held) leaves the state
completely unchanged. -/
theorem C2_lock_cleanup_witness :
    (runBatch cfgA envT [] Dir.up false stL).2.1 = stL :=
  (C2_lock_cleanup cfgA envT [] Dir.up false stL).1 lockedMsg rfl

/-- On a successful waterfall, the log and the executed trace both list exactly
the input names, in order. -/
theorem waterfall_ok_names (cfg : MigConfig) (b : Int) (dir : Dir) (t : Bool) :
    ∀ (ns : List String) (s : DbState) (log : List String),
      (waterfall cfg b dir t ns s).1 = .ok log →
      log = ns ∧ (waterfall cfg b dir t ns s).2.2.map TraceEntry.name = ns := by
  intro ns
  induction ns with
  | nil =>
    intro s log h
    simp only [waterfall] at h ⊢
    injection h with h1
    exact ⟨h1.symm, rfl⟩
  | cons n ns ih =>
    intro s log h
    simp only [waterfall] at h ⊢
    rcases hm : lookupDef cfg n with _ | d
    · rw [hm] at h
      exact absurd h (by simp)
    · rw [hm] at h
      simp only at h ⊢
      cases hok : (match dir with | Dir.up => d.upOk | Dir.down => d.downOk) with
      | false =>
        rw [hok, if_neg (by decide : ¬(false = true))] at h
        exact absurd h (by simp)
      | true =>
        rw [hok, if_pos rfl] at h
        rw [if_pos rfl]
        simp only at h ⊢
        rcases hmap : (waterfall cfg b dir t ns (applyRecord s n dir b)).1 with e1 | log2
        · rw [hmap] at h
          exact absurd h (by simp [Except.map])
        · rw [hmap] at h
          simp only [Except.map] at h
          injection h with h1
          obtain ⟨hlog, hnames⟩ := ih (applyRecord s n dir b) log2 hmap
          constructor
          · rw [← h1, hlog]
          · simp only [List.map_cons]
            rw [hnames]

/-- Inversion of a successful `_runBatch`: the lock was free, the release
statement succeeded, and the run is exactly a successful waterfall over the
input names minus the re-read applied names (re-read only under an outer
transaction), finished by releasing the lock. -/
theorem runBatch_ok_inv (cfg : MigConfig) (env : Env) (migs : List String) (dir : Dir)
    (hasTrx : Bool) (s : DbState) (v : Int × List String)
    (h : (runBatch cfg env migs dir hasTrx s).1 = .ok v) :
    s.is_locked = 0 ∧ env.releaseOk = true ∧
    ∃ log s2 tr,
      waterfall cfg (batchNoFor dir s) dir hasTrx
          (difference migs (if hasTrx then listCompletedNames s else []))
          { s with is_locked := 1 } = (.ok log, s2, tr)
      ∧ runBatch cfg env migs dir hasTrx s
          = (.ok (batchNoFor dir s, log), { s2 with is_locked := 0 }, tr) := by
  unfold runBatch at h
  rcases hg : getLock s with ⟨r1, s1⟩
  rw [hg] at h
  cases r1 with
  | error e1 => exact absurd h (by simp)
  | ok u =>
    obtain ⟨hs0, hs1⟩ := getLock_ok_inv s u s1 hg
    subst hs1
    simp only at h
    cases hv : validateAll cfg
        (difference migs (if hasTrx then listCompletedNames { s with is_locked := 1 } else [])) with
    | error e1 =>
      rw [hv] at h
      exact absurd h (by simp)
    | ok u2 =>
      rw [hv] at h
      simp only at h
      rcases hw : waterfall cfg (batchNoFor dir { s with is_locked := 1 }) dir hasTrx
          (difference migs (if hasTrx then listCompletedNames { s with is_locked := 1 } else []))
          { s with is_locked := 1 } with ⟨rw1, s2, tr⟩
      rw [hw] at h
      cases rw1 with
      | error e1 => exact absurd h (by simp)
      | ok log =>
        simp only at h
        rcases hf : freeLock env s2 with ⟨fr, fs⟩
        rw [hf] at h
        cases fr with
        | error e2 => exact absurd h (by simp)
        | ok u3 =>
          obtain ⟨hrel, hfs⟩ := freeLock_ok_inv env s2 u3 fs hf
          refine ⟨hs0, hrel, log, s2, tr, hw, ?_⟩
          unfold runBatch
          rw [hg]
          simp only
          rw [hv]
          simp only
          rw [hw]
          simp only
          rw [hf, hfs]
          rfl

/-- C3 counterexample: with no outer transaction, `_runBatch` does not re-read
the applied names after taking the lock: the input name `a.js`, already
recorded as applied, is executed again, while the claimed set (input minus
applied re-read under the lock) is empty. -/
theorem C3_reread_cex :
    (runBatch cfgA envT ["a.js"] Dir.up false stA).2.2.map TraceEntry.name = ["a.js"]
    ∧ difference ["a.js"] (listCompletedNames stA) = []
    ∧ (runBatch cfgA envT ["a.js"] Dir.up false stA).2.2.map TraceEntry.name
        ≠ difference ["a.js"] (listCompletedNames stA) := by
  refine ⟨rfl, rfl, by decide⟩

/-- C3 (amended): on a successful `_runBatch`, the set of migrations actually
executed equals the input names minus the applied names re-read under the lock
only when a caller-supplied outer transaction is present; without one, no
re-read happens and the executed set is the input names unchanged. -/
theorem C3_reread (cfg : MigConfig) (env : Env) (migs : List String) (dir : Dir)
    (hasTrx : Bool) (s : DbState) (v : Int × List String)
    (h : (runBatch cfg env migs dir hasTrx s).1 = .ok v) :
    (runBatch cfg env migs dir hasTrx s).2.2.map TraceEntry.name
      = difference migs (if hasTrx then listCompletedNames s else []) := by
  obtain ⟨hs0, hrel, log, s2, tr, hw, hrB⟩ := runBatch_ok_inv cfg env migs dir hasTrx s v h
  rw [hrB]
  have hfst : (waterfall cfg (batchNoFor dir s) dir hasTrx
      (difference migs (if hasTrx then listCompletedNames s else []))
      { s with is_locked := 1 }).1 = .ok log := by rw [hw]
  obtain ⟨hlog, hnames⟩ := waterfall_ok_names cfg (batchNoFor dir s) dir hasTrx
    (difference migs (if hasTrx then listCompletedNames s else []))
    { s with is_locked := 1 } log hfst
  rw [hw] at hnames
  exact hnames

/-- C3 witness: with an outer transaction, the applied name `a.js` is
subtracted under the lock and only `b.js` executes. -/
theorem C3_reread_witness :
    (runBatch cfgAB envT ["a.js", "b.js"] Dir.up true stA).2.2.map TraceEntry.name
      = difference ["a.js", "b.js"] (listCompletedNames stA) :=
  C3_reread cfgAB envT ["a.js", "b.js"] Dir.up true stA (2, ["b.js"]) rfl

/-- A Bool that is not true is false. -/
theorem boolEqFalse {b : Bool} (h : ¬(b = true)) : b = false := by
  cases b
  · rfl
  · exact absurd rfl h

/-- Character comparison is irreflexive. -/
theorem charLtB_irrefl (a : Char) : charLtB a a = false := by
  simp [charLtB]

/-- The JS string comparison is irreflexive. -/
theorem strLt_irrefl : ∀ l : List Char, strLt l l = false := by
  intro l
  induction l with
  | nil => rfl
  | cons a as ih => simp [strLt, charLtB_irrefl, ih]

/-- The JS string comparison is transitive. -/
theorem strLt_trans : ∀ (a b c : List Char),
    strLt a b = true → strLt b c = true → strLt a c = true := by
  intro a
  induction a with
  | nil =>
    intro b c h1 h2
    cases b with
    | nil => simp [strLt] at h1
    | cons y ys =>
      cases c with
      | nil => simp [strLt] at h2
      | cons z zs => rfl
  | cons x xs ih =>
    intro b c h1 h2
    cases b with
    | nil => simp [strLt] at h1
    | cons y ys =>
      cases c with
      | nil => simp [strLt] at h2
      | cons z zs =>
        simp only [strLt] at h1 h2 ⊢
        by_cases hxy : charLtB x y = true
        · by_cases hyz : charLtB y z = true
          · have hxz : charLtB x z = true := by
              simp [charLtB] at hxy hyz ⊢
              omega
            rw [if_pos hxz]
          · rw [if_neg hyz] at h2
            by_cases hzy : charLtB z y = true
            · rw [if_pos hzy] at h2; cases h2
            · rw [if_neg hzy] at h2
              have hxz : charLtB x z = true := by
                simp [charLtB] at hxy hyz hzy ⊢
                omega
              rw [if_pos hxz]
        · rw [if_neg hxy] at h1
          by_cases hyx : charLtB y x = true
          · rw [if_pos hyx] at h1; cases h1
          · rw [if_neg hyx] at h1
            by_cases hyz : charLtB y z = true
            · have hxz : charLtB x z = true := by
                simp [charLtB] at hxy hyx hyz ⊢
                omega
              rw [if_pos hxz]
            · rw [if_neg hyz] at h2
              by_cases hzy : charLtB z y = true
              · rw [if_pos hzy] at h2; cases h2
              · rw [if_neg hzy] at h2
                have hxz : charLtB x z = false := by
                  simp [charLtB] at hxy hyx hyz hzy ⊢
                  omega
                have hzx : charLtB z x = false := by
                  simp [charLtB] at hxy hyx hyz hzy ⊢
                  omega
                rw [hxz, if_neg (by decide : ¬(false = true)),
                  hzx, if_neg (by decide : ¬(false = true))]
                exact ih ys zs h1 h2

/-- If `a < b` and `x` is not below `b` (so `b ≤ x`), then `a < x`, for the JS
string comparison. -/
theorem strLt_lt_of_nlt : ∀ (a b x : List Char),
    strLt a b = true → strLt x b = false → strLt a x = true := by
  intro a
  induction a with
  | nil =>
    intro b c h1 h2
    cases b with
    | nil => simp [strLt] at h1
    | cons y ys =>
      cases c with
      | nil => simp [strLt] at h2
      | cons z zs => rfl
  | cons x0 xs ih =>
    intro b c h1 h2
    cases b with
    | nil => simp [strLt] at h1
    | cons y ys =>
      cases c with
      | nil => simp [strLt] at h2
      | cons z zs =>
        simp only [strLt] at h1 h2 ⊢
        by_cases hzy : charLtB z y = true
        · rw [if_pos hzy] at h2; cases h2
        · rw [if_neg hzy] at h2
          by_cases hx0y : charLtB x0 y = true
          · by_cases hyz : charLtB y z = true
            · have hxz : charLtB x0 z = true := by
                simp [charLtB] at hx0y hyz ⊢
                omega
              rw [if_pos hxz]
            · have hxz : charLtB x0 z = true := by
                simp [charLtB] at hx0y hzy hyz ⊢
                omega
              rw [if_pos hxz]
          · rw [if_neg hx0y] at h1
            by_cases hyx0 : charLtB y x0 = true
            · rw [if_pos hyx0] at h1; cases h1
            · rw [if_neg hyx0] at h1
              by_cases hyz : charLtB y z = true
              · have hxz : charLtB x0 z = true := by
                  simp [charLtB] at hx0y hyx0 hyz ⊢
                  omega
                rw [if_pos hxz]
              · rw [if_neg hyz] at h2
                have hxz : charLtB x0 z = false := by
                  simp [charLtB] at hx0y hyx0 hyz hzy ⊢
                  omega
                have hzx : charLtB z x0 = false := by
                  simp [charLtB] at hx0y hyx0 hyz hzy ⊢
                  omega
                rw [hxz, if_neg (by decide : ¬(false = true)),
                  hzx, if_neg (by decide : ¬(false = true))]
                exact ih ys zs h1 h2

/-- Running maximum of lodash `max`: for any irreflexive, transitive strict
order with the order-completion property, the fold result is an element of the
list and no element is strictly above it. -/
theorem foldlMax_spec {α : Type} (lt : α → α → Bool)
    (hirr : ∀ a, lt a a = false)
    (htr : ∀ a b c, lt a b = true → lt b c = true → lt a c = true)
    (hletr : ∀ a b x, lt a b = true → lt x b = false → lt a x = true) :
    ∀ (xs : List α) (x : α),
      (xs.foldl (fun acc b => if lt acc b then b else acc) x) ∈ x :: xs
      ∧ ∀ p ∈ x :: xs,
          lt (xs.foldl (fun acc b => if lt acc b then b else acc) x) p = false := by
  intro xs
  induction xs with
  | nil =>
    intro x
    constructor
    · simp
    · intro p hp
      rw [List.mem_singleton] at hp
      rw [hp]
      exact hirr x
  | cons b bs ih =>
    intro x
    have hfold : (b :: bs).foldl (fun acc c => if lt acc c then c else acc) x
        = bs.foldl (fun acc c => if lt acc c then c else acc) (if lt x b then b else x) := rfl
    obtain ⟨hmem, hmax⟩ := ih (if lt x b then b else x)
    constructor
    · rw [hfold]
      rcases List.mem_cons.mp hmem with h | h
      · rw [h]
        by_cases hxb : lt x b = true
        · rw [if_pos hxb]
          exact List.mem_cons_of_mem x (List.mem_cons_self b bs)
        · rw [if_neg hxb]
          exact List.mem_cons_self x _
      · exact List.mem_cons_of_mem x (List.mem_cons_of_mem b h)
    · intro p hp
      rw [hfold]
      rcases List.mem_cons.mp hp with hpx | hp2
      · rw [hpx]
        by_cases hxb : lt x b = true
        · have hmb := hmax _ (List.mem_cons_self _ _)
          rw [if_pos hxb] at hmb ⊢
          cases hmx : lt (bs.foldl (fun acc c => if lt acc c then c else acc) b) x with
          | false => rfl
          | true =>
            have h3 := htr _ x b hmx hxb
            rw [hmb] at h3
            cases h3
        · have hmb := hmax _ (List.mem_cons_self _ _)
          rw [if_neg hxb] at hmb ⊢
          exact hmb
      · rcases List.mem_cons.mp hp2 with hpb | hpbs
        · rw [hpb]
          by_cases hxb : lt x b = true
          · have hmb := hmax _ (List.mem_cons_self _ _)
            rw [if_pos hxb] at hmb ⊢
            exact hmb
          · have hmx := hmax _ (List.mem_cons_self _ _)
            rw [if_neg hxb] at hmx ⊢
            cases hmb : lt (bs.foldl (fun acc c => if lt acc c then c else acc) x) b with
            | false => rfl
            | true =>
              have h3 := hletr _ b x hmb (boolEqFalse hxb)
              rw [hmx] at h3
              cases h3
        · exact hmax _ (List.mem_cons_of_mem _ hpbs)

/-- Inserting into the id-sorted list adds one element. -/
theorem insertById_length (r : MigRecord) : ∀ rs : List MigRecord,
    (insertById r rs).length = rs.length + 1 := by
  intro rs
  induction rs with
  | nil => rfl
  | cons x xs ih =>
    simp only [insertById]
    by_cases hc : Nat.ble r.id x.id = true
    · rw [if_pos hc]; rfl
    · rw [if_neg hc]
      simp [ih]

/-- Sorting by id preserves the length. -/
theorem orderById_length : ∀ rs : List MigRecord, (orderById rs).length = rs.length := by
  intro rs
  induction rs with
  | nil => rfl
  | cons x xs ih =>
    simp only [orderById]
    rw [insertById_length, ih]
    rfl

/-- C9: `currentVersion()` returns the sentinel "none" on an empty applied set;
on a nonempty applied set it returns the maximum (under the JS string order
lodash `max` uses) over the applied names of the substring of each name before
its first underscore separator. -/
theorem C9_current_version (s : DbState) :
    (s.records = [] → currentVersion s = "none")
    ∧ (s.records ≠ [] →
        currentVersion s ∈ (listCompletedNames s).map versionToken
        ∧ ∀ p ∈ (listCompletedNames s).map versionToken,
            strLt (currentVersion s).data p.data = false) := by
  constructor
  · intro h
    unfold currentVersion
    rw [show listCompletedNames s = [] from by simp [listCompletedNames, h, orderById]]
    rfl
  · intro h
    have hlen : ((listCompletedNames s).map versionToken).length = s.records.length := by
      simp [listCompletedNames, orderById_length]
    rcases hl : (listCompletedNames s).map versionToken with _ | ⟨x, xs⟩
    · rw [hl] at hlen
      exact absurd (List.length_eq_zero.mp hlen.symm) h
    · have hspec := foldlMax_spec (fun a b : String => strLt a.data b.data)
        (fun a => strLt_irrefl a.data)
        (fun a b c h1 h2 => strLt_trans a.data b.data c.data h1 h2)
        (fun a b c h1 h2 => strLt_lt_of_nlt a.data b.data c.data h1 h2)
        xs x
      have hcv : currentVersion s
          = xs.foldl (fun acc b => if strLt acc.data b.data then b else acc) x := by
        unfold currentVersion
        rw [hl]
        rfl
      rw [hcv]
      exact hspec

/-- C9 witness: on the empty database `currentVersion` returns "none". -/
theorem C9_current_version_witness : currentVersion st0 = "none" :=
  (C9_current_version st0).1 rfl

/-- C10: with no migrations config supplied (fields at their `CONFIG_DEFAULT`
values, migration modules as loaded), `disableTransactions` defaults to true,
so `latest()` never takes the shared-transaction branch, and every executed
migration without a boolean per-migration `config.transaction` override runs
directly on the base connection — with no enclosing transaction. -/
theorem C10_default_transactions (mods : List (String × MigrationDef)) (env : Env)
    (s : DbState) :
    (setConfig none).disableTransactions = true
    ∧ (latest { setConfig none with migrationModules := mods } env s).2.2.1 = false
    ∧ ∀ e ∈ (latest { setConfig none with migrationModules := mods } env s).2.2.2,
        (∀ d, lookupDef { setConfig none with migrationModules := mods } e.name = some d →
          d.trxConfig = none) →
        e.opCtx = Ctx.base := by
  refine ⟨rfl, ?_, ?_⟩
  · unfold latest
    by_cases hm : (difference (listCompletedNames s)
        (listAll { setConfig none with migrationModules := mods })).isEmpty = true
    · rw [if_pos hm]
      simp only
      have hta : (!({ setConfig none with migrationModules := mods }).disableTransactions &&
          ((difference (listAll { setConfig none with migrationModules := mods })
              (listCompletedNames s)).filter
            (fun n => !(useTransaction
              (lookupDef { setConfig none with migrationModules := mods } n) false))).isEmpty)
          = false := rfl
      rw [hta, if_neg (by decide : ¬(false = true))]
    · rw [if_neg hm]
  · intro e he htx
    unfold latest at he
    by_cases hm : (difference (listCompletedNames s)
        (listAll { setConfig none with migrationModules := mods })).isEmpty = true
    · rw [if_pos hm] at he
      simp only at he
      have hta : (!({ setConfig none with migrationModules := mods }).disableTransactions &&
          ((difference (listAll { setConfig none with migrationModules := mods })
              (listCompletedNames s)).filter
            (fun n => !(useTransaction
              (lookupDef { setConfig none with migrationModules := mods } n) false))).isEmpty)
          = false := rfl
      rw [hta, if_neg (by decide : ¬(false = true))] at he
      simp only at he
      obtain ⟨⟨d, hd, hop⟩, _⟩ := runBatch_trace_sub
        { setConfig none with migrationModules := mods } env
        (difference (listAll { setConfig none with migrationModules := mods })
          (listCompletedNames s)) Dir.up false s e he
      have htc : d.trxConfig = none := htx d hd
      have hu : useTransaction (some d)
          ({ setConfig none with migrationModules := mods }).disableTransactions = false := by
        unfold useTransaction
        simp only
        rw [htc]
        rfl
      rw [hop, hu]
      rfl
    · rw [if_neg hm] at he
      simp at he

/-- C10 witness: in the default configuration a module without a transaction
override runs on the base connection. -/
theorem C10_default_transactions_witness :
    (⟨"a.js", Ctx.base, some Ctx.base⟩ : TraceEntry).opCtx = Ctx.base :=
  (C10_default_transactions [("a.js", defOk)] envT st0).2.2
    ⟨"a.js", Ctx.base, some Ctx.base⟩ (by decide)
    (fun d hd => by
      have hd2 : some defOk = some d := hd
      injection hd2 with h
      exact h ▸ rfl)

/-- Consecutive filters combine into the conjunction filter. -/
theorem myFilterFilter {α : Type} (p q : α → Bool) :
    ∀ l : List α, (l.filter p).filter q = l.filter (fun a => p a && q a) := by
  intro l
  induction l with
  | nil => rfl
  | cons x xs ih =>
    cases hp : p x <;> cases hq : q x <;>
      simp [List.filter_cons, hp, hq, ih]

/-- Filtering with pointwise-equal predicates agrees. -/
theorem myFilterCongr {α : Type} (p q : α → Bool) (h : ∀ a, p a = q a) :
    ∀ l : List α, l.filter p = l.filter q := by
  intro l
  induction l with
  | nil => rfl
  | cons x xs ih =>
    simp only [List.filter_cons, h x, ih]

/-- A filter whose predicate holds everywhere keeps the list. -/
theorem myFilterAllTrue {α : Type} (p : α → Bool) :
    ∀ l : List α, (∀ a ∈ l, p a = true) → l.filter p = l := by
  intro l
  induction l with
  | nil => intro _; rfl
  | cons x xs ih =>
    intro h
    rw [List.filter_cons, if_pos (h x (List.mem_cons_self x xs))]
    rw [ih (fun a ha => h a (List.mem_cons_of_mem x ha))]

/-- A filter whose predicate fails everywhere empties the list. -/
theorem myFilterAllFalse {α : Type} (p : α → Bool) :
    ∀ l : List α, (∀ a ∈ l, p a = false) → l.filter p = [] := by
  intro l
  induction l with
  | nil => intro _; rfl
  | cons x xs ih =>
    intro h
    rw [List.filter_cons]
    rw [if_neg (by rw [h x (List.mem_cons_self x xs)]; decide)]
    exact ih (fun a ha => h a (List.mem_cons_of_mem x ha))

/-- `List.contains` on strings decides membership. -/
theorem containsIffMem : ∀ (l : List String) (x : String), l.contains x = true ↔ x ∈ l := by
  intro l
  induction l with
  | nil => intro x; simp [List.contains, List.elem]
  | cons a as ih =>
    intro x
    constructor
    · intro h
      simp only [List.contains, List.elem] at h
      cases hxa : x == a with
      | true => exact List.mem_cons.mpr (Or.inl (eq_of_beq hxa))
      | false =>
        rw [hxa] at h
        exact List.mem_cons.mpr (Or.inr ((ih x).mp h))
    · intro h
      rcases List.mem_cons.mp h with h1 | h1
      · subst h1
        simp [List.contains, List.elem]
      · have h2 := (ih x).mpr h1
        simp only [List.contains, List.elem] at h2 ⊢
        cases hxa : x == a with
        | true => rfl
        | false => exact h2

/-- Membership in a lodash `difference`. -/
theorem mem_difference (a b : List String) (x : String) :
    x ∈ difference a b ↔ x ∈ a ∧ ¬(x ∈ b) := by
  unfold difference
  rw [List.mem_filter]
  constructor
  · intro ⟨h1, h2⟩
    refine ⟨h1, ?_⟩
    intro hmem
    rw [(containsIffMem b x).mpr hmem] at h2
    cases h2
  · intro ⟨h1, h2⟩
    refine ⟨h1, ?_⟩
    cases hc : b.contains x with
    | false => rfl
    | true => exact absurd ((containsIffMem b x).mp hc) h2

/-- Subtracting the empty list is the identity. -/
theorem difference_nil (a : List String) : difference a [] = a :=
  myFilterAllTrue _ a (fun _ _ => rfl)

/-- Subtracting the same list twice equals subtracting it once. -/
theorem difference_diff_same (a b : List String) :
    difference (difference a b) b = difference a b := by
  unfold difference
  rw [myFilterFilter]
  exact myFilterCongr _ _ (fun x => by cases h : b.contains x <;> simp [h]) a

/-- The names of the records an "up" waterfall inserts are the input names. -/
theorem mkInserts_names : ∀ (ns : List String) (b : Int) (i : Nat),
    (mkInserts ns b i).map MigRecord.name = ns := by
  intro ns
  induction ns with
  | nil => intro b i; rfl
  | cons n ns ih =>
    intro b i
    simp only [mkInserts, List.map_cons, ih]

/-- Every inserted record carries the batch number of the run. -/
theorem mkInserts_batch : ∀ (ns : List String) (b : Int) (i : Nat),
    ∀ r ∈ mkInserts ns b i, r.batch = b := by
  intro ns
  induction ns with
  | nil => intro b i r hr; cases hr
  | cons n ns ih =>
    intro b i r hr
    rcases List.mem_cons.mp hr with h | h
    · rw [h]
    · exact ih b (i + 1) r h

/-- A nonempty batch inserts a nonempty record list. -/
theorem mkInserts_ne_nil (ns : List String) (b : Int) (i : Nat) (h : ns ≠ []) :
    mkInserts ns b i ≠ [] := by
  cases ns with
  | nil => exact absurd rfl h
  | cons n ns => simp [mkInserts]

/-- Insertion into the id-sorted list preserves membership. -/
theorem insertById_mem (r : MigRecord) : ∀ (rs : List MigRecord) (a : MigRecord),
    a ∈ insertById r rs ↔ a = r ∨ a ∈ rs := by
  intro rs
  induction rs with
  | nil =>
    intro a
    simp [insertById]
  | cons x xs ih =>
    intro a
    simp only [insertById]
    by_cases hc : Nat.ble r.id x.id = true
    · rw [if_pos hc]
      simp [List.mem_cons]
    · rw [if_neg hc]
      rw [List.mem_cons, ih a, List.mem_cons]
      tauto

/-- Sorting by id preserves membership. -/
theorem orderById_mem : ∀ (rs : List MigRecord) (a : MigRecord),
    a ∈ orderById rs ↔ a ∈ rs := by
  intro rs
  induction rs with
  | nil => intro a; simp [orderById]
  | cons x xs ih =>
    intro a
    simp only [orderById]
    rw [insertById_mem, ih a, List.mem_cons]

/-- Sorting by descending id preserves membership. -/
theorem orderByIdDesc_mem (rs : List MigRecord) (a : MigRecord) :
    a ∈ orderByIdDesc rs ↔ a ∈ rs := by
  unfold orderByIdDesc
  rw [List.mem_reverse]
  exact orderById_mem rs a

/-- The applied-name list contains exactly the names of the records. -/
theorem listCompletedNames_mem (s : DbState) (x : String) :
    x ∈ listCompletedNames s ↔ x ∈ s.records.map MigRecord.name := by
  unfold listCompletedNames
  rw [List.mem_map, List.mem_map]
  constructor
  · intro ⟨r, hr, hn⟩
    exact ⟨r, (orderById_mem s.records r).mp hr, hn⟩
  · intro ⟨r, hr, hn⟩
    exact ⟨r, (orderById_mem s.records r).mpr hr, hn⟩

/-- Every record's batch is bounded by the table's maximum batch. -/
theorem mem_le_maxBatch : ∀ (rs : List MigRecord) (r : MigRecord),
    r ∈ rs → r.batch ≤ maxBatch rs := by
  intro rs
  induction rs with
  | nil => intro r hr; cases hr
  | cons x xs ih =>
    intro r hr
    cases xs with
    | nil =>
      rcases List.mem_cons.mp hr with h | h
      · rw [h]
        exact le_rfl
      · cases h
    | cons y ys =>
      rcases List.mem_cons.mp hr with h | h
      · rw [h]
        exact le_max_left _ _
      · exact le_trans (ih r h) (le_max_right _ _)

/-- The maximum batch of a nonempty constant-batch table is that batch. -/
theorem maxBatch_const : ∀ (new : List MigRecord) (b : Int),
    (∀ r ∈ new, r.batch = b) → new ≠ [] → maxBatch new = b := by
  intro new
  induction new with
  | nil => intro b _ hne; exact absurd rfl hne
  | cons n0 rest ih =>
    intro b hnew hne
    cases rest with
    | nil => exact hnew n0 (List.mem_cons_self _ _)
    | cons r2 rs =>
      have hrec : maxBatch (r2 :: rs) = b :=
        ih b (fun r hr => hnew r (List.mem_cons_of_mem _ hr)) (by simp)
      show max n0.batch (maxBatch (r2 :: rs)) = b
      rw [hrec, hnew n0 (List.mem_cons_self _ _)]
      exact max_self b

/-- The maximum batch of a table extended by a nonempty constant-batch block
that dominates every old batch is the block's batch. -/
theorem maxBatch_append_const : ∀ (old new : List MigRecord) (b : Int),
    (∀ r ∈ old, r.batch < b) → (∀ r ∈ new, r.batch = b) → new ≠ [] →
    maxBatch (old ++ new) = b := by
  intro old
  induction old with
  | nil =>
    intro new b _ hnew hne
    simp only [List.nil_append]
    exact maxBatch_const new b hnew hne
  | cons o os ih =>
    intro new b hold hnew hne
    have hne2 : os ++ new ≠ [] := by
      intro hcontra
      rcases List.append_eq_nil.mp hcontra with ⟨_, h2⟩
      exact hne h2
    have hrec : maxBatch (os ++ new) = b :=
      ih new b (fun r hr => hold r (List.mem_cons_of_mem o hr)) hnew hne
    rcases hrest : os ++ new with _ | ⟨r2, rs⟩
    · exact absurd hrest hne2
    · have hcons : (o :: os) ++ new = o :: r2 :: rs := by rw [List.cons_append, hrest]
      rw [hcons]
      show max o.batch (maxBatch (r2 :: rs)) = b
      rw [hrest] at hrec
      rw [hrec]
      exact max_eq_right (le_of_lt (hold o (List.mem_cons_self o os)))

/-- Record-table effect of a successful "up" waterfall: the input names are
appended as records with consecutive ids from the auto-increment counter, all
in the run's batch; the lock row is untouched. -/
theorem waterfall_ok_up (cfg : MigConfig) (b : Int) (t : Bool) :
    ∀ (ns : List String) (s : DbState) (log : List String),
      (waterfall cfg b Dir.up t ns s).1 = .ok log →
      (waterfall cfg b Dir.up t ns s).2.1
        = ⟨s.is_locked, s.records ++ mkInserts ns b s.nextId,
            s.nextId + ns.length⟩ := by
  intro ns
  induction ns with
  | nil =>
    intro s log h
    show s = ⟨s.is_locked, s.records ++ mkInserts [] b s.nextId,
      s.nextId + ([] : List String).length⟩
    simp [mkInserts]
  | cons n ns ih =>
    intro s log h
    simp only [waterfall] at h ⊢
    rcases hm : lookupDef cfg n with _ | d
    · rw [hm] at h
      exact absurd h (by simp)
    · rw [hm] at h
      simp only at h ⊢
      cases hok : d.upOk with
      | false =>
        rw [hok, if_neg (by decide : ¬(false = true))] at h
        exact absurd h (by simp)
      | true =>
        rw [hok, if_pos rfl] at h
        rw [if_pos rfl]
        simp only at h ⊢
        rcases hmap : (waterfall cfg b Dir.up t ns (applyRecord s n Dir.up b)).1 with e1 | log2
        · rw [hmap] at h
          exact absurd h (by simp [Except.map])
        · have ih2 := ih (applyRecord s n Dir.up b) log2 hmap
          rw [ih2]
          simp only [applyRecord, mkInserts]
          rw [List.append_assoc]
          have hn : s.nextId + 1 + ns.length = s.nextId + (n :: ns).length := by
            simp only [List.length_cons]
            omega
          rw [hn]
          rfl

/-- Record-table effect of a successful "down" waterfall: delete-by-name for
each input name in order; the lock row and the id counter are untouched. -/
theorem waterfall_ok_down (cfg : MigConfig) (b : Int) (t : Bool) :
    ∀ (ns : List String) (s : DbState) (log : List String),
      (waterfall cfg b Dir.down t ns s).1 = .ok log →
      (waterfall cfg b Dir.down t ns s).2.1
        = ⟨s.is_locked, removeNames ns s.records, s.nextId⟩ := by
  intro ns
  induction ns with
  | nil =>
    intro s log h
    show s = ⟨s.is_locked, removeNames [] s.records, s.nextId⟩
    rfl
  | cons n ns ih =>
    intro s log h
    simp only [waterfall] at h ⊢
    rcases hm : lookupDef cfg n with _ | d
    · rw [hm] at h
      exact absurd h (by simp)
    · rw [hm] at h
      simp only at h ⊢
      cases hok : d.downOk with
      | false =>
        rw [hok, if_neg (by decide : ¬(false = true))] at h
        exact absurd h (by simp)
      | true =>
        rw [hok, if_pos rfl] at h
        rw [if_pos rfl]
        simp only at h ⊢
        rcases hmap : (waterfall cfg b Dir.down t ns (applyRecord s n Dir.down b)).1
          with e1 | log2
        · rw [hmap] at h
          exact absurd h (by simp [Except.map])
        · have ih2 := ih (applyRecord s n Dir.down b) log2 hmap
          rw [ih2]
          rfl

/-- Successive delete-by-name statements equal one filter excluding all the
names. -/
theorem removeNames_eq_filter : ∀ (ns : List String) (rs : List MigRecord),
    removeNames ns rs = rs.filter (fun r => !(ns.contains r.name)) := by
  intro ns
  induction ns with
  | nil =>
    intro rs
    show rs = rs.filter (fun r => !(List.contains [] r.name))
    exact (myFilterAllTrue _ rs (fun a _ => rfl)).symm
  | cons n ns ih =>
    intro rs
    show removeNames ns (rs.filter (fun r => !(r.name == n)))
      = rs.filter (fun r => !(List.contains (n :: ns) r.name))
    rw [ih, myFilterFilter]
    exact myFilterCongr _ _
      (fun r => by cases h : r.name == n <;> simp [List.contains, List.elem, h]) rs

/-- A committing (successful) `knex.transaction` is transparent: the result is
the callback's result. -/
theorem knexTransaction_ok (f : DbState → (Except MErr (Int × List String)) × DbState × List TraceEntry)
    (s : DbState) (v : Int × List String) (h : (knexTransaction f s).1 = .ok v) :
    knexTransaction f s = f s := by
  unfold knexTransaction at h ⊢
  rcases hf : f s with ⟨r1, s1, tr⟩
  rw [hf] at h
  cases r1 with
  | error e1 => exact absurd h (by simp)
  | ok vv => rfl

/-- Inversion of a successful `latest()`: the run is a successful "up"
`_runBatch` over the pending set (inside the shared transaction or not), and
the resulting state is that run's state. -/
theorem latest_ok_inv (cfg : MigConfig) (env : Env) (s : DbState) (v : Int × List String)
    (h : (latest cfg env s).1 = .ok v) :
    ∃ t, (runBatch cfg env
        (difference (listAll cfg) (listCompletedNames s)) Dir.up t s).1 = .ok v
      ∧ (latest cfg env s).2.1
          = (runBatch cfg env (difference (listAll cfg) (listCompletedNames s)) Dir.up t s).2.1 := by
  unfold latest at h ⊢
  by_cases hm : (difference (listCompletedNames s) (listAll cfg)).isEmpty = true
  · rw [if_pos hm] at h ⊢
    simp only at h ⊢
    by_cases hta : (!cfg.disableTransactions &&
        ((difference (listAll cfg) (listCompletedNames s)).filter
          (fun n => !(useTransaction (lookupDef cfg n) false))).isEmpty) = true
    · rw [if_pos hta] at h ⊢
      simp only at h ⊢
      have hk := knexTransaction_ok _ s v h
      refine ⟨true, ?_, ?_⟩
      · exact hk ▸ h
      · rw [hk]
    · rw [if_neg hta] at h ⊢
      exact ⟨false, h, rfl⟩
  · rw [if_neg hm] at h
    exact absurd h (by simp)

/-- Inversion of a successful `rollback()`: it is a successful "down"
`_runBatch` over the names of the last batch, with no outer transaction. -/
theorem rollback_ok_inv (cfg : MigConfig) (env : Env) (s : DbState) (w : Int × List String)
    (h : (rollback cfg env s).1 = .ok w) :
    (runBatch cfg env ((getLastBatch s).map MigRecord.name) Dir.down false s).1 = .ok w
    ∧ rollback cfg env s
        = runBatch cfg env ((getLastBatch s).map MigRecord.name) Dir.down false s := by
  unfold rollback at h ⊢
  by_cases hm : (difference (listCompletedNames s) (listAll cfg)).isEmpty = true
  · rw [if_pos hm] at h ⊢
    exact ⟨h, rfl⟩
  · rw [if_neg hm] at h
    exact absurd h (by simp)

/-- C4 counterexample: with `a.js` already applied (batch 1) and nothing
pending, `latest()` succeeds as a no-op, but `rollback()` then succeeds by
rolling back batch 1 — the applied set is NOT restored to its pre-`latest()`
state. -/
theorem C4_roundtrip_cex :
    (latest cfgA envT stA).1 = .ok (2, [])
    ∧ (rollback cfgA envT (latest cfgA envT stA).2.1).1 = .ok (1, ["a.js"])
    ∧ (rollback cfgA envT (latest cfgA envT stA).2.1).2.1.records ≠ stA.records := by
  refine ⟨rfl, rfl, by decide⟩

/-- C4 (amended): when the pending set is nonempty, a successful `latest()`
followed by a successful `rollback()` restores the applied-records table to
exactly its pre-`latest()` contents (rollback targets exactly the records of
the new maximal batch, and deletes them by name). -/
theorem C4_roundtrip (cfg : MigConfig) (env : Env) (s : DbState) (v w : Int × List String)
    (hne : difference (listAll cfg) (listCompletedNames s) ≠ [])
    (h1 : (latest cfg env s).1 = .ok v)
    (h2 : (rollback cfg env (latest cfg env s).2.1).1 = .ok w) :
    (rollback cfg env (latest cfg env s).2.1).2.1.records = s.records := by
  obtain ⟨t, hrb1, hstate1⟩ := latest_ok_inv cfg env s v h1
  obtain ⟨hs0, hrel, log, s2, tr, hw, hrBeq⟩ :=
    runBatch_ok_inv cfg env (difference (listAll cfg) (listCompletedNames s)) Dir.up t s v hrb1
  have hmigs : difference (difference (listAll cfg) (listCompletedNames s))
      (if t then listCompletedNames s else [])
      = difference (listAll cfg) (listCompletedNames s) := by
    cases t with
    | false => exact difference_nil _
    | true => exact difference_diff_same _ _
  rw [hmigs] at hw
  have hwfst : (waterfall cfg (batchNoFor Dir.up s) Dir.up t
      (difference (listAll cfg) (listCompletedNames s)) { s with is_locked := 1 }).1
      = .ok log := by rw [hw]
  have hwstate := waterfall_ok_up cfg (batchNoFor Dir.up s) t
    (difference (listAll cfg) (listCompletedNames s)) { s with is_locked := 1 } log hwfst
  rw [hw] at hwstate
  simp only at hwstate
  have hsMid : (latest cfg env s).2.1
      = ⟨0, s.records ++ mkInserts (difference (listAll cfg) (listCompletedNames s))
            (batchNoFor Dir.up s) s.nextId,
          s.nextId + (difference (listAll cfg) (listCompletedNames s)).length⟩ := by
    rw [hstate1, hrBeq]
    simp only
    rw [hwstate]
  obtain ⟨hrb2, hrolleq⟩ := rollback_ok_inv cfg env ((latest cfg env s).2.1) w h2
  obtain ⟨hs0b, hrelb, log2, s2b, trb, hwb, hrBeq2⟩ :=
    runBatch_ok_inv cfg env ((getLastBatch ((latest cfg env s).2.1)).map MigRecord.name)
      Dir.down false ((latest cfg env s).2.1) w hrb2
  have hnames0 : difference ((getLastBatch ((latest cfg env s).2.1)).map MigRecord.name)
      (if false then listCompletedNames ((latest cfg env s).2.1) else [])
      = (getLastBatch ((latest cfg env s).2.1)).map MigRecord.name := difference_nil _
  rw [hnames0] at hwb
  have hwfst2 : (waterfall cfg (batchNoFor Dir.down ((latest cfg env s).2.1)) Dir.down false
      ((getLastBatch ((latest cfg env s).2.1)).map MigRecord.name)
      { (latest cfg env s).2.1 with is_locked := 1 }).1 = .ok log2 := by rw [hwb]
  have hwstate2 := waterfall_ok_down cfg (batchNoFor Dir.down ((latest cfg env s).2.1)) false
    ((getLastBatch ((latest cfg env s).2.1)).map MigRecord.name)
    { (latest cfg env s).2.1 with is_locked := 1 } log2 hwfst2
  rw [hwb] at hwstate2
  simp only at hwstate2
  have hfinal : (rollback cfg env ((latest cfg env s).2.1)).2.1.records
      = removeNames ((getLastBatch ((latest cfg env s).2.1)).map MigRecord.name)
          ((latest cfg env s).2.1).records := by
    rw [hrolleq, hrBeq2]
    simp only
    rw [hwstate2]
  have hbdef : batchNoFor Dir.up s = maxBatch s.records + 1 := rfl
  have hold2 : ∀ r ∈ s.records, r.batch < batchNoFor Dir.up s := by
    intro r hr
    have h3 := mem_le_maxBatch s.records r hr
    rw [hbdef]
    omega
  have hnewb : ∀ r ∈ mkInserts (difference (listAll cfg) (listCompletedNames s))
      (batchNoFor Dir.up s) s.nextId, r.batch = batchNoFor Dir.up s :=
    mkInserts_batch _ _ _
  have hnewne : mkInserts (difference (listAll cfg) (listCompletedNames s))
      (batchNoFor Dir.up s) s.nextId ≠ [] :=
    mkInserts_ne_nil _ _ _ hne
  have hb : maxBatch (s.records ++ mkInserts (difference (listAll cfg) (listCompletedNames s))
      (batchNoFor Dir.up s) s.nextId) = batchNoFor Dir.up s :=
    maxBatch_append_const _ _ _ hold2 hnewb hnewne
  have hfilterb : (s.records ++ mkInserts (difference (listAll cfg) (listCompletedNames s))
        (batchNoFor Dir.up s) s.nextId).filter
      (fun r => r.batch == maxBatch (s.records ++
        mkInserts (difference (listAll cfg) (listCompletedNames s))
          (batchNoFor Dir.up s) s.nextId))
      = mkInserts (difference (listAll cfg) (listCompletedNames s))
          (batchNoFor Dir.up s) s.nextId := by
    rw [hb, List.filter_append,
      myFilterAllFalse _ s.records (fun r hr =>
        beq_eq_false_iff_ne.mpr (Int.ne_of_lt (hold2 r hr))),
      myFilterAllTrue _ _ (fun r hr => beq_iff_eq.mpr (hnewb r hr)),
      List.nil_append]
  have hnamesMem : ∀ x, x ∈ (orderByIdDesc (mkInserts
      (difference (listAll cfg) (listCompletedNames s))
      (batchNoFor Dir.up s) s.nextId)).map MigRecord.name
      ↔ x ∈ difference (listAll cfg) (listCompletedNames s) := by
    intro x
    rw [List.mem_map]
    constructor
    · intro ⟨r, hr, hxr⟩
      have hr2 := (orderByIdDesc_mem _ r).mp hr
      have h4 := List.mem_map_of_mem MigRecord.name hr2
      rw [mkInserts_names] at h4
      rw [← hxr]
      exact h4
    · intro hx
      have h4 : x ∈ (mkInserts (difference (listAll cfg) (listCompletedNames s))
          (batchNoFor Dir.up s) s.nextId).map MigRecord.name := by
        rw [mkInserts_names]
        exact hx
      obtain ⟨r, hr, hxr⟩ := List.mem_map.mp h4
      exact ⟨r, (orderByIdDesc_mem _ r).mpr hr, hxr⟩
  have hgood : ∀ r ∈ s.records,
      (!((orderByIdDesc (mkInserts (difference (listAll cfg) (listCompletedNames s))
        (batchNoFor Dir.up s) s.nextId)).map MigRecord.name).contains r.name) = true := by
    intro r hr
    cases hc : ((orderByIdDesc (mkInserts (difference (listAll cfg) (listCompletedNames s))
        (batchNoFor Dir.up s) s.nextId)).map MigRecord.name).contains r.name with
    | false => rfl
    | true =>
      exfalso
      have hmem := (containsIffMem _ _).mp hc
      have hpend := (hnamesMem r.name).mp hmem
      have h5 := (mem_difference _ _ _).mp hpend
      exact h5.2 ((listCompletedNames_mem s r.name).mpr (List.mem_map_of_mem _ hr))
  have hbad : ∀ r ∈ mkInserts (difference (listAll cfg) (listCompletedNames s))
      (batchNoFor Dir.up s) s.nextId,
      (!((orderByIdDesc (mkInserts (difference (listAll cfg) (listCompletedNames s))
        (batchNoFor Dir.up s) s.nextId)).map MigRecord.name).contains r.name) = false := by
    intro r hr
    have h4 : r.name ∈ difference (listAll cfg) (listCompletedNames s) := by
      have h5 := List.mem_map_of_mem MigRecord.name hr
      rw [mkInserts_names] at h5
      exact h5
    have hmem : r.name ∈ (orderByIdDesc (mkInserts
        (difference (listAll cfg) (listCompletedNames s))
        (batchNoFor Dir.up s) s.nextId)).map MigRecord.name :=
      (hnamesMem r.name).mpr h4
    rw [(containsIffMem _ _).mpr hmem]
    rfl
  rw [hfinal, hsMid]
  simp only [getLastBatch]
  rw [hfilterb]
  rw [removeNames_eq_filter, List.filter_append,
    myFilterAllTrue _ s.records hgood,
    myFilterAllFalse _ _ hbad,
    List.append_nil]

/-- C4 witness: from the empty database with one pending migration, `latest()`
then `rollback()` restores the (empty) applied set. -/
theorem C4_roundtrip_witness :
    (rollback cfgA envT (latest cfgA envT st0).2.1).2.1.records = st0.records :=
  C4_roundtrip cfgA envT st0 (1, ["a.js"]) (1, ["a.js"]) (by decide) rfl rfl
